import Mathlib

/-!
Verification of the centered interval tree in `src/src/lib.rs` /
`src/src/interval_tree.rs` / `src/src/interval.rs` (the two tree files are
iterative variants of the same design; line references below follow
`src/src/interval_tree.rs` unless stated otherwise).

Embedding choices:
* the generic integer domain `T` is embedded twice.  The main model uses
  `Int`: Rust's `/` on signed integers truncates toward zero, which is
  `Int.tdiv`, and addition is exact — faithful to every execution in which
  `start + end` never overflows (the structural claims proved below do not
  depend on the center's value at all, so they also hold of the fixed-width
  program).  The numerical claims about overflow itself (C9, C10) instead use
  the `w`-bit unsigned instantiation (`centerWrap`, `WIntervalTree`), where
  the center's sum wraps modulo `2 ^ w` (release-mode semantics);
* a `BinaryHeap` is embedded as a `List` of the stored intervals, with `push`
  as cons.  The `IntervalBeginSorted` / `IntervalEndSorted` wrappers only
  change the heap's internal ordering; both queries iterate over the whole
  heap with `iter().filter(..)`, so the iteration order is irrelevant and the
  wrapper is dropped in the embedding;
* a `HashSet` accumulator is embedded as a `Finset`;
* `insert` recurses on a tree that grows downward (children are created
  lazily), so the embedding takes an explicit fuel parameter; running out of
  fuel is the `diverge` outcome, an `assert!` failure is the `panic` outcome.
  (The recursion is genuinely partial: `insert` can loop forever, see the
  theorems on claim C9.)
-/

namespace ITree

/-- An interval `[start, stop)` over the integer domain.  Embeds the source's
`Interval<T>` value (a `Range<T>` pair); the Rust field `end` is a reserved
word in Lean and is embedded as `stop`. -/
structure Interval where
  start : Int
  stop : Int
deriving DecidableEq, Repr

/-- A node of the centered interval tree, `src/src/interval_tree.rs` lines
9-19.  The `range: Range<T>` field is flattened into `start` / `stop`;
`overlaps_begin` / `overlaps_end` are the two heaps, embedded as lists of the
stored intervals. -/
inductive IntervalTree : Type where
  | mk (start stop center : Int)
       (left right : Option IntervalTree)
       (overlaps_begin overlaps_end : List Interval) : IntervalTree

def IntervalTree.start : IntervalTree → Int
  | .mk s _ _ _ _ _ _ => s

def IntervalTree.stop : IntervalTree → Int
  | .mk _ e _ _ _ _ _ => e

def IntervalTree.center : IntervalTree → Int
  | .mk _ _ c _ _ _ _ => c

def IntervalTree.left : IntervalTree → Option IntervalTree
  | .mk _ _ _ l _ _ _ => l

def IntervalTree.right : IntervalTree → Option IntervalTree
  | .mk _ _ _ _ r _ _ => r

def IntervalTree.overlaps_begin : IntervalTree → List Interval
  | .mk _ _ _ _ _ hb _ => hb

def IntervalTree.overlaps_end : IntervalTree → List Interval
  | .mk _ _ _ _ _ _ he => he

/-- `IntervalTree::new`, `src/src/interval_tree.rs` lines 26-37: a leaf node
covering `range`, with `center = (range.start + range.end) / 2` (truncating
division), no children and empty heaps.  The source performs no validity
check on the range. -/
def IntervalTree.new (start stop : Int) : IntervalTree :=
  .mk start stop (Int.tdiv (start + stop) 2) none none [] []

/-- `overflow_interval`, `src/src/interval_tree.rs` lines 151-153. -/
def IntervalTree.overflow_interval (t : IntervalTree) (i : Interval) : Bool :=
  i.start < t.start || i.stop > t.stop

/-- `overflow_point`, `src/src/interval_tree.rs` lines 155-157. -/
def IntervalTree.overflow_point (t : IntervalTree) (p : Int) : Bool :=
  p < t.start || p ≥ t.stop

/-- Outcome of a call to `insert`: the `assert!` failed (`panic`), the given
fuel was exhausted (`diverge`), or the updated tree is returned (`ok`). -/
inductive InsResult : Type where
  | panic : InsResult
  | diverge : InsResult
  | ok : IntervalTree → InsResult

/-- `IntervalTree::insert`, `src/src/interval_tree.rs` lines 56-79, with
explicit fuel.  Checks the assertion, then either descends into the (lazily
created) left child when `interval.end <= center`, descends into the right
child when `interval.start > center`, or pushes the interval onto both heaps
of the current node. -/
def IntervalTree.insert : Nat → IntervalTree → Interval → InsResult
  | 0, _, _ => .diverge
  | fuel + 1, t, interval =>
    if t.overflow_interval interval then .panic
    else if interval.stop ≤ t.center then
      match IntervalTree.insert fuel (t.left.getD (new t.start t.center)) interval with
      | .ok l' => .ok (.mk t.start t.stop t.center (some l') t.right
          t.overlaps_begin t.overlaps_end)
      | res => res
    else if interval.start > t.center then
      match IntervalTree.insert fuel (t.right.getD (new t.center t.stop)) interval with
      | .ok r' => .ok (.mk t.start t.stop t.center t.left (some r')
          t.overlaps_begin t.overlaps_end)
      | res => res
    else
      .ok (.mk t.start t.stop t.center t.left t.right
        (interval :: t.overlaps_begin) (interval :: t.overlaps_end))

/-- `find_with_point_rec`, `src/src/interval_tree.rs` lines 117-138: when
`point < center`, collect the intervals of the begin-heap whose `start <=
point` and recurse left; otherwise collect the intervals of the end-heap
whose `end > point` and recurse right. -/
def IntervalTree.find_with_point_rec : IntervalTree → Int → Finset Interval → Finset Interval
  | .mk _ _ c l r hb he, point, found =>
    if point < c then
      let found' := (hb.filter fun intv => intv.start ≤ point).foldl
        (fun acc x => Insert.insert x acc) found
      match l with
      | some lt => lt.find_with_point_rec point found'
      | none => found'
    else
      let found' := (he.filter fun intv => intv.stop > point).foldl
        (fun acc x => Insert.insert x acc) found
      match r with
      | some rt => rt.find_with_point_rec point found'
      | none => found'

/-- `find_with_point`, `src/src/interval_tree.rs` lines 109-115: assert the
point is in range, then collect recursively starting from an empty set.
`none` embeds the panic of the failed assertion. -/
def IntervalTree.find_with_point (t : IntervalTree) (point : Int) :
    Option (Finset Interval) :=
  if t.overflow_point point then none
  else some (t.find_with_point_rec point ∅)

/-- The usage protocol of the library (spec section 2): construct with `new`,
then `insert` each interval of the list in order.  `none` when an insertion
panics or runs out of fuel. -/
def IntervalTree.build_from (fuel : Nat) : IntervalTree → List Interval → Option IntervalTree
  | t, [] => some t
  | t, i :: rest =>
    match IntervalTree.insert fuel t i with
    | .ok t' => IntervalTree.build_from fuel t' rest
    | _ => none

/-- A tree built over `[start, stop)` by inserting the intervals of `l` in
order. -/
def IntervalTree.build (fuel : Nat) (start stop : Int) (l : List Interval) :
    Option IntervalTree :=
  IntervalTree.build_from fuel (IntervalTree.new start stop) l

/-- The multiset of intervals stored anywhere in the tree (taken from the
begin-heaps). -/
def IntervalTree.contents : IntervalTree → Multiset Interval
  | .mk _ _ _ l r hb _ =>
    (hb : Multiset Interval)
      + (match l with | none => 0 | some lt => lt.contents)
      + (match r with | none => 0 | some rt => rt.contents)

/-- Structural storage invariant maintained by `insert`: the two heaps of a
node hold the same list, every interval stored at a node straddles its
center, every interval in the left subtree ends at or before the center, and
every interval in the right subtree starts strictly after it. -/
def IntervalTree.StoreInv : IntervalTree → Prop
  | .mk _ _ c l r hb he =>
    hb = he ∧
    (∀ i ∈ hb, i.start ≤ c ∧ c < i.stop) ∧
    (∀ lt, l = some lt → (∀ i ∈ lt.contents, i.stop ≤ c) ∧ lt.StoreInv) ∧
    (∀ rt, r = some rt → (∀ i ∈ rt.contents, c < i.start) ∧ rt.StoreInv)

/-- Structural range invariant: a node's center is the truncated midpoint of
its range, a left child covers `[start, center)` and a right child covers
`[center, stop)`. -/
def IntervalTree.RangeInv : IntervalTree → Prop
  | .mk s e c l r _ _ =>
    c = Int.tdiv (s + e) 2 ∧
    (∀ lt, l = some lt → lt.start = s ∧ lt.stop = c ∧ lt.RangeInv) ∧
    (∀ rt, r = some rt → rt.start = c ∧ rt.stop = e ∧ rt.RangeInv)

/-- At every node of the tree the two heaps hold the same set of intervals
(claim C6, spec section 3). -/
def IntervalTree.HeapsEqSet : IntervalTree → Prop
  | .mk _ _ _ l r hb he =>
    (∀ x, x ∈ hb ↔ x ∈ he) ∧
    (∀ lt, l = some lt → lt.HeapsEqSet) ∧
    (∀ rt, r = some rt → rt.HeapsEqSet)

/-- Node-wise heap containment: every element of either heap of the first
tree is still in the corresponding heap of the second, and every child of the
first tree is still a child of the second (claim C6: nothing is ever removed
from a heap). -/
def IntervalTree.SubHeaps : IntervalTree → IntervalTree → Prop
  | .mk _ _ _ l r hb he, .mk _ _ _ l' r' hb' he' =>
    (∀ x ∈ hb, x ∈ hb') ∧ (∀ x ∈ he, x ∈ he') ∧
    (∀ lt, l = some lt → ∃ lt', l' = some lt' ∧ lt.SubHeaps lt') ∧
    (∀ rt, r = some rt → ∃ rt', r' = some rt' ∧ rt.SubHeaps rt')

/-- The left child `insert` descends into: the existing one, or the lazily
created `new(range.start, center)` (`src/src/interval_tree.rs` lines 60-63). -/
def IntervalTree.childLeft (t : IntervalTree) : IntervalTree :=
  t.left.getD (IntervalTree.new t.start t.center)

/-- The right child `insert` descends into: the existing one, or the lazily
created `new(center, range.end)` (`src/src/interval_tree.rs` lines 67-70). -/
def IntervalTree.childRight (t : IntervalTree) : IntervalTree :=
  t.right.getD (IntervalTree.new t.center t.stop)

/-- The descent path `insert` takes for `i`, as a list of directions
(`false` = left, `true` = right), mirroring the branch structure of the
source: left when `interval.end <= center`, else right when
`interval.start > center`, else stop at the current node, whose center the
interval then straddles. -/
def IntervalTree.descends : IntervalTree → Interval → List Bool → Prop
  | t, i, [] => ¬(i.stop ≤ t.center) ∧ ¬(i.start > t.center)
  | t, i, false :: p => i.stop ≤ t.center ∧ IntervalTree.descends t.childLeft i p
  | t, i, true :: p =>
    ¬(i.stop ≤ t.center) ∧ i.start > t.center ∧ IntervalTree.descends t.childRight i p

/-- The tree obtained by walking `path` (materializing missing children
lazily) and pushing `i` onto both heaps of the final node, leaving every
other node's heaps untouched. -/
def IntervalTree.addAlong : IntervalTree → Interval → List Bool → IntervalTree
  | .mk s e c l r hb he, i, [] => .mk s e c l r (i :: hb) (i :: he)
  | .mk s e c l r hb he, i, false :: p =>
    .mk s e c (some (IntervalTree.addAlong ((IntervalTree.mk s e c l r hb he).childLeft) i p))
      r hb he
  | .mk s e c l r hb he, i, true :: p =>
    .mk s e c l (some (IntervalTree.addAlong ((IntervalTree.mk s e c l r hb he).childRight) i p))
      hb he

/-- `insert` diverges on this input: it never returns, whatever the fuel. -/
def IntervalTree.insertDiverges (t : IntervalTree) (i : Interval) : Prop :=
  ∀ fuel, IntervalTree.insert fuel t i = .diverge

/-- The points of the half-open span `[a, b)` of an integer query interval. -/
def spanPoints (a b : Int) : List Int :=
  (List.range (b - a).toNat).map (fun k : Nat => a + (k : Int))

/-- Modelled from the spec: `find_with_interval` exists in the source only as
a commented-out draft (`src/src/interval_tree.rs` lines 140-149), so the
compiled library does not provide it.  Spec section 4.1 describes it as: check
the same out-of-range contract as `insert`, then return "the union, over
every point in `query`'s span, of `find_with_point(point)`". -/
def IntervalTree.find_with_interval (t : IntervalTree) (query : Interval) :
    Option (Finset Interval) :=
  if t.overflow_interval query then none
  else
    (spanPoints query.start query.stop).foldlM
      (fun acc p => (t.find_with_point p).map (fun s => acc ∪ s)) ∅

/-- The center computation `(start + end) / 2` (`src/src/interval.rs` lines
64-66, `src/src/lib.rs` line 30) instantiated at a `w`-bit unsigned integer
domain: the sum wraps modulo `2 ^ w` on overflow (Rust release-mode
semantics). -/
def centerWrap (w : Nat) (s e : Nat) : Nat :=
  ((s + e) % 2 ^ w) / 2

/-- The source's `Interval<T>` instantiated at a `w`-bit unsigned integer
domain: a pair of machine values (comparisons on values below `2 ^ w` agree
with the mathematical ones, so they are plain `Nat` comparisons). -/
structure WInterval where
  start : Nat
  stop : Nat
deriving DecidableEq, Repr

/-- The source's tree node (`src/src/interval_tree.rs` lines 9-19)
instantiated at a `w`-bit unsigned integer domain: same shape as
`IntervalTree`, with machine values in the fields. -/
inductive WIntervalTree : Type where
  | mk (start stop center : Nat)
       (left right : Option WIntervalTree)
       (overlaps_begin overlaps_end : List WInterval) : WIntervalTree

def WIntervalTree.start : WIntervalTree → Nat
  | .mk s _ _ _ _ _ _ => s

def WIntervalTree.stop : WIntervalTree → Nat
  | .mk _ e _ _ _ _ _ => e

def WIntervalTree.center : WIntervalTree → Nat
  | .mk _ _ c _ _ _ _ => c

def WIntervalTree.left : WIntervalTree → Option WIntervalTree
  | .mk _ _ _ l _ _ _ => l

def WIntervalTree.right : WIntervalTree → Option WIntervalTree
  | .mk _ _ _ _ r _ _ => r

def WIntervalTree.overlaps_begin : WIntervalTree → List WInterval
  | .mk _ _ _ _ _ hb _ => hb

def WIntervalTree.overlaps_end : WIntervalTree → List WInterval
  | .mk _ _ _ _ _ _ he => he

/-- `IntervalTree::new` at the `w`-bit unsigned domain: the center is
`(start + end) / 2` computed in the machine arithmetic, so the sum wraps
modulo `2 ^ w` on overflow (release-mode semantics; a debug build panics on
the overflowing addition instead). -/
def WIntervalTree.new (w : Nat) (start stop : Nat) : WIntervalTree :=
  .mk start stop (centerWrap w start stop) none none [] []

/-- `overflow_interval` at the `w`-bit unsigned domain (comparisons do not
wrap). -/
def WIntervalTree.overflow_interval (t : WIntervalTree) (i : WInterval) : Bool :=
  i.start < t.start || i.stop > t.stop

/-- Outcome of a `w`-bit `insert` call, as for `InsResult`. -/
inductive WInsResult : Type where
  | panic : WInsResult
  | diverge : WInsResult
  | ok : WIntervalTree → WInsResult

/-- `IntervalTree::insert` at the `w`-bit unsigned domain, with explicit
fuel: the same branch structure as `IntervalTree.insert`, with the lazily
created children taking their (wrapped) centers from `WIntervalTree.new`. -/
def WIntervalTree.insert (w : Nat) : Nat → WIntervalTree → WInterval → WInsResult
  | 0, _, _ => .diverge
  | fuel + 1, t, interval =>
    if t.overflow_interval interval then .panic
    else if interval.stop ≤ t.center then
      match WIntervalTree.insert w fuel (t.left.getD (new w t.start t.center)) interval with
      | .ok l' => .ok (.mk t.start t.stop t.center (some l') t.right
          t.overlaps_begin t.overlaps_end)
      | res => res
    else if interval.start > t.center then
      match WIntervalTree.insert w fuel (t.right.getD (new w t.center t.stop)) interval with
      | .ok r' => .ok (.mk t.start t.stop t.center t.left (some r')
          t.overlaps_begin t.overlaps_end)
      | res => res
    else
      .ok (.mk t.start t.stop t.center t.left t.right
        (interval :: t.overlaps_begin) (interval :: t.overlaps_end))

/-- The `w`-bit `insert` diverges on this input: it never returns, whatever
the fuel. -/
def WIntervalTree.insertDiverges (w : Nat) (t : WIntervalTree) (i : WInterval) : Prop :=
  ∀ fuel, WIntervalTree.insert w fuel t i = .diverge

/-- The node starts reached by inserting `[200, 201)` into the u8 tree over
`[200, 250)`: the wrapped centers drop below the interval, so the descent
keeps going right through `[center, 250)` nodes whose starts eventually cycle
`10, 2, 126, 60, 27, 10, ...`. -/
def wrapChain : List Nat :=
  [200, 97, 45, 19, 6, 0, 125, 59, 26, 10, 2, 126, 60, 27]

/-! Helper lemmas. -/

/-- Induction over the tree, with hypotheses for the optional children. -/
theorem IntervalTree.myInduction (P : IntervalTree → Prop)
    (h : ∀ s e c l r hb he, (∀ lt, l = some lt → P lt) → (∀ rt, r = some rt → P rt) →
      P (.mk s e c l r hb he)) : ∀ t, P t
  | .mk s e c none none hb he =>
    h s e c none none hb he (fun _ hl => by cases hl) (fun _ hr => by cases hr)
  | .mk s e c (some lt) none hb he =>
    h s e c (some lt) none hb he
      (fun lt' hl => by cases hl; exact IntervalTree.myInduction P h lt)
      (fun _ hr => by cases hr)
  | .mk s e c none (some rt) hb he =>
    h s e c none (some rt) hb he (fun _ hl => by cases hl)
      (fun rt' hr => by cases hr; exact IntervalTree.myInduction P h rt)
  | .mk s e c (some lt) (some rt) hb he =>
    h s e c (some lt) (some rt) hb he
      (fun lt' hl => by cases hl; exact IntervalTree.myInduction P h lt)
      (fun rt' hr => by cases hr; exact IntervalTree.myInduction P h rt)

@[simp] theorem IntervalTree.start_mk (s e c : Int) (l r : Option IntervalTree)
    (hb he : List Interval) : (IntervalTree.mk s e c l r hb he).start = s := rfl

@[simp] theorem IntervalTree.stop_mk (s e c : Int) (l r : Option IntervalTree)
    (hb he : List Interval) : (IntervalTree.mk s e c l r hb he).stop = e := rfl

@[simp] theorem IntervalTree.center_mk (s e c : Int) (l r : Option IntervalTree)
    (hb he : List Interval) : (IntervalTree.mk s e c l r hb he).center = c := rfl

@[simp] theorem IntervalTree.left_mk (s e c : Int) (l r : Option IntervalTree)
    (hb he : List Interval) : (IntervalTree.mk s e c l r hb he).left = l := rfl

@[simp] theorem IntervalTree.right_mk (s e c : Int) (l r : Option IntervalTree)
    (hb he : List Interval) : (IntervalTree.mk s e c l r hb he).right = r := rfl

@[simp] theorem IntervalTree.overlaps_begin_mk (s e c : Int) (l r : Option IntervalTree)
    (hb he : List Interval) : (IntervalTree.mk s e c l r hb he).overlaps_begin = hb := rfl

@[simp] theorem IntervalTree.overlaps_end_mk (s e c : Int) (l r : Option IntervalTree)
    (hb he : List Interval) : (IntervalTree.mk s e c l r hb he).overlaps_end = he := rfl

theorem mem_foldl_ins (l : List Interval) (s : Finset Interval) (x : Interval) :
    x ∈ l.foldl (fun acc y => Insert.insert y acc) s ↔ x ∈ s ∨ x ∈ l := by
  induction l generalizing s with
  | nil => simp
  | cons a tl ih => simp [ih, Finset.mem_insert]; tauto

theorem IntervalTree.new_storeInv (s e : Int) : (IntervalTree.new s e).StoreInv := by
  simp [IntervalTree.new, IntervalTree.StoreInv]

theorem IntervalTree.new_rangeInv (s e : Int) : (IntervalTree.new s e).RangeInv := by
  simp [IntervalTree.new, IntervalTree.RangeInv]

theorem IntervalTree.new_contents (s e : Int) : (IntervalTree.new s e).contents = 0 := by
  simp [IntervalTree.new, IntervalTree.contents]

/-- Membership in `contents`, unfolded over the optional children. -/
theorem IntervalTree.mem_contents (s e c : Int) (l r : Option IntervalTree)
    (hb he : List Interval) (x : Interval) :
    x ∈ (IntervalTree.mk s e c l r hb he).contents ↔
      x ∈ hb ∨ (∃ lt, l = some lt ∧ x ∈ lt.contents) ∨
        (∃ rt, r = some rt ∧ x ∈ rt.contents) := by
  cases l <;> cases r <;> simp [IntervalTree.contents, or_assoc]

/-- Unfolding lemma for `contents` with unconstrained children. -/
theorem IntervalTree.contents_mk (s e c : Int) (l r : Option IntervalTree)
    (hb he : List Interval) :
    (IntervalTree.mk s e c l r hb he).contents
      = (hb : Multiset Interval)
        + (match l with | none => 0 | some lt => lt.contents)
        + (match r with | none => 0 | some rt => rt.contents) := by
  cases l <;> cases r <;> simp [IntervalTree.contents]

/-- Multiset algebra used to re-associate a freshly inserted interval to the
front of the stored contents. -/
theorem cons_shuffle (a b d : Multiset Interval) (i : Interval) :
    a + (i ::ₘ b) + d = i ::ₘ (a + b + d) := by
  rw [Multiset.add_cons, Multiset.cons_add]

/-- Characterization of the recursive point query: under the storage
invariant it collects, on top of the accumulator, exactly the stored
intervals containing the point. -/
theorem IntervalTree.mem_find_rec : ∀ (t : IntervalTree), t.StoreInv →
    ∀ (p : Int) (acc : Finset Interval) (x : Interval),
    (x ∈ t.find_with_point_rec p acc ↔
      x ∈ acc ∨ (x ∈ t.contents ∧ x.start ≤ p ∧ p < x.stop)) := by
  intro t
  induction t using IntervalTree.myInduction with
  | h s e c l r hb he ihl ihr =>
    intro hInv p acc x
    rw [IntervalTree.StoreInv] at hInv
    obtain ⟨hbe, hstr, hl, hr⟩ := hInv
    subst hbe
    rw [IntervalTree.find_with_point_rec]
    simp only [IntervalTree.mem_contents]
    by_cases hp : p < c
    · simp only [if_pos hp]
      cases l with
      | none =>
        rw [mem_foldl_ins]
        simp only [List.mem_filter, decide_eq_true_eq]
        constructor
        · rintro (hx | ⟨hxb, hxs⟩)
          · exact Or.inl hx
          · exact Or.inr ⟨Or.inl hxb, hxs, lt_trans hp (hstr x hxb).2⟩
        · rintro (hx | ⟨hmem, hc1, hc2⟩)
          · exact Or.inl hx
          · rcases hmem with hxb | ⟨lt, hlt, _⟩ | ⟨rt, hrt, hxr⟩
            · exact Or.inr ⟨hxb, hc1⟩
            · cases hlt
            · have := ((hr rt hrt).1 x hxr)
              omega
      | some lt =>
        rw [ihl lt rfl (hl lt rfl).2, mem_foldl_ins]
        simp only [List.mem_filter, decide_eq_true_eq]
        constructor
        · rintro ((hx | ⟨hxb, hxs⟩) | ⟨hxl, hc1, hc2⟩)
          · exact Or.inl hx
          · exact Or.inr ⟨Or.inl hxb, hxs, lt_trans hp (hstr x hxb).2⟩
          · exact Or.inr ⟨Or.inr (Or.inl ⟨lt, rfl, hxl⟩), hc1, hc2⟩
        · rintro (hx | ⟨hmem, hc1, hc2⟩)
          · exact Or.inl (Or.inl hx)
          · rcases hmem with hxb | ⟨lt', hlt, hxl⟩ | ⟨rt, hrt, hxr⟩
            · exact Or.inl (Or.inr ⟨hxb, hc1⟩)
            · cases hlt
              exact Or.inr ⟨hxl, hc1, hc2⟩
            · have := ((hr rt hrt).1 x hxr)
              omega
    · simp only [if_neg hp]
      have hcp : c ≤ p := not_lt.mp hp
      cases r with
      | none =>
        rw [mem_foldl_ins]
        simp only [List.mem_filter, decide_eq_true_eq]
        constructor
        · rintro (hx | ⟨hxb, hxs⟩)
          · exact Or.inl hx
          · exact Or.inr ⟨Or.inl hxb, le_trans (hstr x hxb).1 hcp, hxs⟩
        · rintro (hx | ⟨hmem, hc1, hc2⟩)
          · exact Or.inl hx
          · rcases hmem with hxb | ⟨lt, hlt, hxl⟩ | ⟨rt, hrt, _⟩
            · exact Or.inr ⟨hxb, hc2⟩
            · have := ((hl lt hlt).1 x hxl)
              omega
            · cases hrt
      | some rt =>
        rw [ihr rt rfl (hr rt rfl).2, mem_foldl_ins]
        simp only [List.mem_filter, decide_eq_true_eq]
        constructor
        · rintro ((hx | ⟨hxb, hxs⟩) | ⟨hxr, hc1, hc2⟩)
          · exact Or.inl hx
          · exact Or.inr ⟨Or.inl hxb, le_trans (hstr x hxb).1 hcp, hxs⟩
          · exact Or.inr ⟨Or.inr (Or.inr ⟨rt, rfl, hxr⟩), hc1, hc2⟩
        · rintro (hx | ⟨hmem, hc1, hc2⟩)
          · exact Or.inl (Or.inl hx)
          · rcases hmem with hxb | ⟨lt, hlt, hxl⟩ | ⟨rt', hrt, hxr⟩
            · exact Or.inl (Or.inr ⟨hxb, hc2⟩)
            · have := ((hl lt hlt).1 x hxl)
              omega
            · cases hrt
              exact Or.inr ⟨hxr, hc1, hc2⟩

/-- Contents of the child `insert` descends into, existing or lazily
created. -/
theorem IntervalTree.contents_getD (o : Option IntervalTree) (a b : Int) :
    (o.getD (IntervalTree.new a b)).contents
      = (match o with | none => 0 | some t => t.contents) := by
  cases o <;> simp [IntervalTree.new_contents]

/-- Everything a successful `insert` guarantees: the node's range and center
are unchanged, the stored intervals are exactly the old ones plus the new
interval, the inserted interval passed the range assertion and is nonempty,
and both structural invariants are preserved. -/
theorem IntervalTree.insert_ok_spec : ∀ (fuel : Nat) (t t' : IntervalTree) (i : Interval),
    IntervalTree.insert fuel t i = .ok t' →
    t'.start = t.start ∧ t'.stop = t.stop ∧ t'.center = t.center ∧
    t'.contents = i ::ₘ t.contents ∧
    t.overflow_interval i = false ∧
    i.start < i.stop ∧
    (t.StoreInv → t'.StoreInv) ∧
    (t.RangeInv → t'.RangeInv) := by
  intro fuel
  induction fuel with
  | zero =>
    intro t t' i h
    rw [IntervalTree.insert] at h
    cases h
  | succ n ih =>
    intro t t' i h
    obtain ⟨s, e, c, l, r, hb, he⟩ := t
    rw [IntervalTree.insert] at h
    cases hov : (IntervalTree.mk s e c l r hb he).overflow_interval i with
    | true =>
      rw [hov] at h
      simp only [if_true] at h
      cases h
    | false =>
    rw [hov] at h
    simp only [Bool.false_eq_true, if_false] at h
    simp only [IntervalTree.center_mk, IntervalTree.left_mk, IntervalTree.start_mk,
      IntervalTree.stop_mk, IntervalTree.right_mk, IntervalTree.overlaps_begin_mk,
      IntervalTree.overlaps_end_mk] at h
    by_cases h1 : i.stop ≤ c
    · -- descend left
      rw [if_pos h1] at h
      cases hrec : IntervalTree.insert n (l.getD (IntervalTree.new s c)) i with
      | panic => rw [hrec] at h; cases h
      | diverge => rw [hrec] at h; cases h
      | ok l' =>
        rw [hrec] at h
        cases h
        obtain ⟨hfs, hfe, hfc, hcont, hovc, hne, hsi, hri⟩ := ih _ _ _ hrec
        rw [IntervalTree.contents_getD] at hcont
        refine ⟨rfl, rfl, rfl, ?_, rfl, hne, ?_, ?_⟩
        · simp only [IntervalTree.contents_mk]
          rw [hcont, cons_shuffle]
        · -- StoreInv preserved
          intro hs
          rw [IntervalTree.StoreInv] at hs ⊢
          obtain ⟨hbe, hstr, hsl, hsr⟩ := hs
          refine ⟨hbe, hstr, ?_, hsr⟩
          intro lt' hlt'
          cases hlt'
          constructor
          · intro j hj
            rw [hcont] at hj
            rcases Multiset.mem_cons.mp hj with hji | hjc
            · subst hji; exact h1
            · cases hl : l with
              | none => subst hl; cases hjc
              | some lt =>
                subst hl
                exact (hsl lt rfl).1 j hjc
          · apply hsi
            cases hl : l with
            | none => subst hl; exact IntervalTree.new_storeInv s c
            | some lt => subst hl; exact (hsl lt rfl).2
        · -- RangeInv preserved
          intro hrg
          rw [IntervalTree.RangeInv] at hrg ⊢
          obtain ⟨hc, hrl, hrr⟩ := hrg
          refine ⟨hc, ?_, hrr⟩
          intro lt' hlt'
          cases hlt'
          cases hl : l with
          | none =>
            subst hl
            simp only [Option.getD_none] at hfs hfe hri
            exact ⟨by simpa [IntervalTree.new] using hfs,
              by simpa [IntervalTree.new] using hfe,
              hri (IntervalTree.new_rangeInv s c)⟩
          | some lt =>
            subst hl
            simp only [Option.getD_some] at hfs hfe hri
            obtain ⟨hls, hle, hlr⟩ := hrl lt rfl
            exact ⟨hfs.trans hls, hfe.trans hle, hri hlr⟩
    · by_cases h2 : i.start > c
      · -- descend right
        rw [if_neg h1, if_pos h2] at h
        cases hrec : IntervalTree.insert n (r.getD (IntervalTree.new c e)) i with
        | panic => rw [hrec] at h; cases h
        | diverge => rw [hrec] at h; cases h
        | ok r' =>
          rw [hrec] at h
          cases h
          obtain ⟨hfs, hfe, hfc, hcont, hovc, hne, hsi, hri⟩ := ih _ _ _ hrec
          rw [IntervalTree.contents_getD] at hcont
          refine ⟨rfl, rfl, rfl, ?_, rfl, hne, ?_, ?_⟩
          · simp only [IntervalTree.contents_mk]
            rw [hcont, Multiset.add_cons]
          · -- StoreInv preserved
            intro hs
            rw [IntervalTree.StoreInv] at hs ⊢
            obtain ⟨hbe, hstr, hsl, hsr⟩ := hs
            refine ⟨hbe, hstr, hsl, ?_⟩
            intro rt' hrt'
            cases hrt'
            constructor
            · intro j hj
              rw [hcont] at hj
              rcases Multiset.mem_cons.mp hj with hji | hjc
              · subst hji; exact h2
              · cases hr : r with
                | none => subst hr; cases hjc
                | some rt =>
                  subst hr
                  exact (hsr rt rfl).1 j hjc
            · apply hsi
              cases hr : r with
              | none => subst hr; exact IntervalTree.new_storeInv c e
              | some rt => subst hr; exact (hsr rt rfl).2
          · -- RangeInv preserved
            intro hrg
            rw [IntervalTree.RangeInv] at hrg ⊢
            obtain ⟨hc, hrl, hrr⟩ := hrg
            refine ⟨hc, hrl, ?_⟩
            intro rt' hrt'
            cases hrt'
            cases hr : r with
            | none =>
              subst hr
              simp only [Option.getD_none] at hfs hfe hri
              exact ⟨by simpa [IntervalTree.new] using hfs,
                by simpa [IntervalTree.new] using hfe,
                hri (IntervalTree.new_rangeInv c e)⟩
            | some rt =>
              subst hr
              simp only [Option.getD_some] at hfs hfe hri
              obtain ⟨hrs, hre, hrrt⟩ := hrr rt rfl
              exact ⟨hfs.trans hrs, hfe.trans hre, hri hrrt⟩
      · -- straddle: store at this node
        rw [if_neg h1, if_neg h2] at h
        cases h
        have hstraddle : i.start ≤ c ∧ c < i.stop := ⟨not_lt.mp h2, not_le.mp h1⟩
        refine ⟨rfl, rfl, rfl, ?_, rfl, by omega, ?_, ?_⟩
        · simp only [IntervalTree.contents_mk]
          have hcc : ((i :: hb : List Interval) : Multiset Interval)
              = i ::ₘ (hb : Multiset Interval) := rfl
          rw [hcc, Multiset.cons_add, Multiset.cons_add]
        · intro hs
          rw [IntervalTree.StoreInv] at hs ⊢
          obtain ⟨hbe, hstr, hsl, hsr⟩ := hs
          refine ⟨by rw [hbe], ?_, hsl, hsr⟩
          intro j hj
          cases hj with
          | head => exact hstraddle
          | tail _ hj => exact hstr j hj
        · intro hrg
          rw [IntervalTree.RangeInv] at hrg ⊢
          exact hrg

theorem IntervalTree.overflow_interval_false (t : IntervalTree) (i : Interval) :
    t.overflow_interval i = false ↔ t.start ≤ i.start ∧ i.stop ≤ t.stop := by
  rw [IntervalTree.overflow_interval]
  simp only [Bool.or_eq_false_iff, decide_eq_false_iff_not]
  omega

theorem IntervalTree.overflow_point_false (t : IntervalTree) (p : Int) :
    t.overflow_point p = false ↔ t.start ≤ p ∧ p < t.stop := by
  rw [IntervalTree.overflow_point]
  simp only [Bool.or_eq_false_iff, decide_eq_false_iff_not]
  omega

/-- Under the range invariant, an insertion whose argument passes the root
assertion never panics: the assertions at the recursive calls always hold. -/
theorem IntervalTree.insert_ne_panic : ∀ (fuel : Nat) (t : IntervalTree) (i : Interval),
    t.RangeInv → t.overflow_interval i = false →
    IntervalTree.insert fuel t i ≠ .panic := by
  intro fuel
  induction fuel with
  | zero =>
    intro t i _ _ h
    rw [IntervalTree.insert] at h
    cases h
  | succ n ih =>
    intro t i hrg hov h
    obtain ⟨s, e, c, l, r, hb, he⟩ := t
    rw [IntervalTree.RangeInv] at hrg
    obtain ⟨hc, hrl, hrr⟩ := hrg
    rw [IntervalTree.overflow_interval_false] at hov
    simp only [IntervalTree.start_mk, IntervalTree.stop_mk] at hov
    rw [IntervalTree.insert] at h
    rw [show (IntervalTree.mk s e c l r hb he).overflow_interval i = false by
      rw [IntervalTree.overflow_interval_false]; simpa using hov] at h
    simp only [Bool.false_eq_true, if_false] at h
    simp only [IntervalTree.center_mk, IntervalTree.left_mk, IntervalTree.start_mk,
      IntervalTree.stop_mk, IntervalTree.right_mk, IntervalTree.overlaps_begin_mk,
      IntervalTree.overlaps_end_mk] at h
    by_cases h1 : i.stop ≤ c
    · rw [if_pos h1] at h
      have hchild : (l.getD (IntervalTree.new s c)).RangeInv ∧
          (l.getD (IntervalTree.new s c)).overflow_interval i = false := by
        cases hl : l with
        | none =>
          refine ⟨IntervalTree.new_rangeInv s c, ?_⟩
          rw [IntervalTree.overflow_interval_false]
          simp [IntervalTree.new]
          omega
        | some lt =>
          obtain ⟨hls, hle, hlr⟩ := hrl lt hl
          simp only [Option.getD_some]
          refine ⟨hlr, ?_⟩
          rw [IntervalTree.overflow_interval_false, hls, hle]
          omega
      cases hrec : IntervalTree.insert n (l.getD (IntervalTree.new s c)) i with
      | ok l' => rw [hrec] at h; cases h
      | diverge => rw [hrec] at h; cases h
      | panic => exact ih _ i hchild.1 hchild.2 hrec
    · by_cases h2 : i.start > c
      · rw [if_neg h1, if_pos h2] at h
        have hchild : (r.getD (IntervalTree.new c e)).RangeInv ∧
            (r.getD (IntervalTree.new c e)).overflow_interval i = false := by
          cases hr : r with
          | none =>
            refine ⟨IntervalTree.new_rangeInv c e, ?_⟩
            rw [IntervalTree.overflow_interval_false]
            simp [IntervalTree.new]
            omega
          | some rt =>
            obtain ⟨hrs, hre, hrrt⟩ := hrr rt hr
            simp only [Option.getD_some]
            refine ⟨hrrt, ?_⟩
            rw [IntervalTree.overflow_interval_false, hrs, hre]
            omega
        cases hrec : IntervalTree.insert n (r.getD (IntervalTree.new c e)) i with
        | ok r' => rw [hrec] at h; cases h
        | diverge => rw [hrec] at h; cases h
        | panic => exact ih _ i hchild.1 hchild.2 hrec
      · rw [if_neg h1, if_neg h2] at h
        cases h

/-- An `insert` called with a failing assertion panics at once. -/
theorem IntervalTree.insert_panic_of_overflow (fuel : Nat) (t : IntervalTree) (i : Interval)
    (hf : 0 < fuel) (hov : t.overflow_interval i = true) :
    IntervalTree.insert fuel t i = .panic := by
  obtain ⟨n, rfl⟩ := Nat.exists_eq_succ_of_ne_zero (Nat.pos_iff_ne_zero.mp hf)
  rw [IntervalTree.insert, hov]
  simp

/-- Everything a successful `build_from` guarantees, by composing
`insert_ok_spec` over the list. -/
theorem IntervalTree.build_from_spec : ∀ (l : List Interval) (fuel : Nat)
    (t t' : IntervalTree), IntervalTree.build_from fuel t l = some t' →
    t'.start = t.start ∧ t'.stop = t.stop ∧ t'.center = t.center ∧
    t'.contents = (l : Multiset Interval) + t.contents ∧
    (t.StoreInv → t'.StoreInv) ∧ (t.RangeInv → t'.RangeInv) ∧
    (∀ i ∈ l, t.start ≤ i.start ∧ i.stop ≤ t.stop ∧ i.start < i.stop) := by
  intro l
  induction l with
  | nil =>
    intro fuel t t' h
    rw [IntervalTree.build_from] at h
    cases h
    simp
  | cons i rest ih =>
    intro fuel t t' h
    rw [IntervalTree.build_from] at h
    cases hins : IntervalTree.insert fuel t i with
    | panic => rw [hins] at h; cases h
    | diverge => rw [hins] at h; cases h
    | ok t1 =>
      rw [hins] at h
      obtain ⟨hfs1, hfe1, hfc1, hcont1, hov1, hne1, hsi1, hri1⟩ :=
        IntervalTree.insert_ok_spec fuel t t1 i hins
      obtain ⟨hfs2, hfe2, hfc2, hcont2, hsi2, hri2, hmem2⟩ := ih fuel t1 t' h
      rw [IntervalTree.overflow_interval_false] at hov1
      refine ⟨hfs2.trans hfs1, hfe2.trans hfe1, hfc2.trans hfc1, ?_, ?_, ?_, ?_⟩
      · rw [hcont2, hcont1, Multiset.add_cons]
        have hcc : ((i :: rest : List Interval) : Multiset Interval)
            = i ::ₘ (rest : Multiset Interval) := rfl
        rw [hcc, Multiset.cons_add]
      · exact fun hs => hsi2 (hsi1 hs)
      · exact fun hr => hri2 (hri1 hr)
      · intro j hj
        rcases List.mem_cons.mp hj with hji | hjr
        · subst hji; exact ⟨hov1.1, hov1.2, hne1⟩
        · have := hmem2 j hjr
          rw [hfs1, hfe1] at this
          exact this

/-- Everything a successful `build` guarantees about the resulting tree. -/
theorem IntervalTree.build_spec (fuel : Nat) (s e : Int) (l : List Interval)
    (t : IntervalTree) (h : IntervalTree.build fuel s e l = some t) :
    t.start = s ∧ t.stop = e ∧ t.StoreInv ∧ t.RangeInv ∧
    t.contents = (l : Multiset Interval) ∧
    (∀ i ∈ l, s ≤ i.start ∧ i.stop ≤ e ∧ i.start < i.stop) := by
  rw [IntervalTree.build] at h
  obtain ⟨hfs, hfe, hfc, hcont, hsi, hri, hmem⟩ := IntervalTree.build_from_spec l fuel _ t h
  have hns : (IntervalTree.new s e).start = s := rfl
  have hne : (IntervalTree.new s e).stop = e := rfl
  refine ⟨hfs.trans hns, hfe.trans hne, hsi (IntervalTree.new_storeInv s e),
    hri (IntervalTree.new_rangeInv s e), ?_, ?_⟩
  · rw [hcont, IntervalTree.new_contents, add_zero]
  · intro i hi
    have := hmem i hi
    rw [hns, hne] at this
    exact this

/-- A successful insertion follows the unique descent path described by
`descends`, and the result is exactly `addAlong` of that path: the interval
is stored at the heaps of the path's final node and nowhere else. -/
theorem IntervalTree.insert_descends : ∀ (fuel : Nat) (t t' : IntervalTree) (i : Interval),
    IntervalTree.insert fuel t i = .ok t' →
    ∃ path, IntervalTree.descends t i path ∧ t' = IntervalTree.addAlong t i path ∧
      ∀ q, IntervalTree.descends t i q → q = path := by
  intro fuel
  induction fuel with
  | zero =>
    intro t t' i h
    rw [IntervalTree.insert] at h
    cases h
  | succ n ih =>
    intro t t' i h
    obtain ⟨s, e, c, l, r, hb, he⟩ := t
    rw [IntervalTree.insert] at h
    cases hov : (IntervalTree.mk s e c l r hb he).overflow_interval i with
    | true => rw [hov] at h; simp only [if_true] at h; cases h
    | false =>
    rw [hov] at h
    simp only [Bool.false_eq_true, if_false, IntervalTree.center_mk, IntervalTree.left_mk,
      IntervalTree.right_mk, IntervalTree.start_mk, IntervalTree.stop_mk,
      IntervalTree.overlaps_begin_mk, IntervalTree.overlaps_end_mk] at h
    by_cases h1 : i.stop ≤ c
    · rw [if_pos h1] at h
      cases hrec : IntervalTree.insert n (l.getD (IntervalTree.new s c)) i with
      | panic => rw [hrec] at h; cases h
      | diverge => rw [hrec] at h; cases h
      | ok l' =>
        rw [hrec] at h
        cases h
        have hcl : (IntervalTree.mk s e c l r hb he).childLeft
            = l.getD (IntervalTree.new s c) := rfl
        obtain ⟨p0, hdesc, haa, huniq⟩ := ih _ _ _ hrec
        refine ⟨false :: p0, ?_, ?_, ?_⟩
        · rw [IntervalTree.descends, hcl]
          exact ⟨h1, hdesc⟩
        · rw [IntervalTree.addAlong]
          rw [hcl, ← haa]
        · intro q hq
          cases q with
          | nil =>
            rw [IntervalTree.descends] at hq
            exact absurd h1 (by simpa using hq.1)
          | cons d q' =>
            cases d with
            | false =>
              rw [IntervalTree.descends, hcl] at hq
              rw [huniq q' hq.2]
            | true =>
              rw [IntervalTree.descends] at hq
              exact absurd h1 (by simpa using hq.1)
    · by_cases h2 : i.start > c
      · rw [if_neg h1, if_pos h2] at h
        cases hrec : IntervalTree.insert n (r.getD (IntervalTree.new c e)) i with
        | panic => rw [hrec] at h; cases h
        | diverge => rw [hrec] at h; cases h
        | ok r' =>
          rw [hrec] at h
          cases h
          have hcr : (IntervalTree.mk s e c l r hb he).childRight
              = r.getD (IntervalTree.new c e) := rfl
          obtain ⟨p0, hdesc, haa, huniq⟩ := ih _ _ _ hrec
          refine ⟨true :: p0, ?_, ?_, ?_⟩
          · rw [IntervalTree.descends, hcr]
            exact ⟨h1, h2, hdesc⟩
          · rw [IntervalTree.addAlong]
            rw [hcr, ← haa]
          · intro q hq
            cases q with
            | nil =>
              rw [IntervalTree.descends] at hq
              exact absurd h2 (by simpa using hq.2)
            | cons d q' =>
              cases d with
              | false =>
                rw [IntervalTree.descends] at hq
                exact absurd hq.1 h1
              | true =>
                rw [IntervalTree.descends, hcr] at hq
                rw [huniq q' hq.2.2]
      · rw [if_neg h1, if_neg h2] at h
        cases h
        refine ⟨[], ?_, ?_, ?_⟩
        · rw [IntervalTree.descends]
          exact ⟨h1, h2⟩
        · rw [IntervalTree.addAlong]
        · intro q hq
          cases q with
          | nil => rfl
          | cons d q' =>
            cases d with
            | false =>
              rw [IntervalTree.descends] at hq
              exact absurd hq.1 h1
            | true =>
              rw [IntervalTree.descends] at hq
              exact absurd hq.2.1 h2

/-- The storage invariant contains heap equality at every node. -/
theorem IntervalTree.storeInv_heapsEqSet : ∀ t : IntervalTree, t.StoreInv → t.HeapsEqSet := by
  intro t
  induction t using IntervalTree.myInduction with
  | h s e c l r hb he ihl ihr =>
    intro hs
    rw [IntervalTree.StoreInv] at hs
    rw [IntervalTree.HeapsEqSet]
    obtain ⟨hbe, _, hsl, hsr⟩ := hs
    exact ⟨fun x => by rw [hbe], fun lt hl => ihl lt hl (hsl lt hl).2,
      fun rt hr => ihr rt hr (hsr rt hr).2⟩

theorem IntervalTree.subHeaps_refl : ∀ t : IntervalTree, t.SubHeaps t := by
  intro t
  induction t using IntervalTree.myInduction with
  | h s e c l r hb he ihl ihr =>
    rw [IntervalTree.SubHeaps]
    exact ⟨fun x hx => hx, fun x hx => hx, fun lt hl => ⟨lt, hl, ihl lt hl⟩,
      fun rt hr => ⟨rt, hr, ihr rt hr⟩⟩

/-- A successful insertion only ever grows heaps: every stored interval stays
in the heap it was in, and every existing child survives. -/
theorem IntervalTree.insert_subHeaps : ∀ (fuel : Nat) (t t' : IntervalTree) (i : Interval),
    IntervalTree.insert fuel t i = .ok t' → t.SubHeaps t' := by
  intro fuel
  induction fuel with
  | zero =>
    intro t t' i h
    rw [IntervalTree.insert] at h
    cases h
  | succ n ih =>
    intro t t' i h
    obtain ⟨s, e, c, l, r, hb, he⟩ := t
    rw [IntervalTree.insert] at h
    cases hov : (IntervalTree.mk s e c l r hb he).overflow_interval i with
    | true => rw [hov] at h; simp only [if_true] at h; cases h
    | false =>
    rw [hov] at h
    simp only [Bool.false_eq_true, if_false, IntervalTree.center_mk, IntervalTree.left_mk,
      IntervalTree.right_mk, IntervalTree.start_mk, IntervalTree.stop_mk,
      IntervalTree.overlaps_begin_mk, IntervalTree.overlaps_end_mk] at h
    by_cases h1 : i.stop ≤ c
    · rw [if_pos h1] at h
      cases hrec : IntervalTree.insert n (l.getD (IntervalTree.new s c)) i with
      | panic => rw [hrec] at h; cases h
      | diverge => rw [hrec] at h; cases h
      | ok l' =>
        rw [hrec] at h
        cases h
        rw [IntervalTree.SubHeaps]
        refine ⟨fun x hx => hx, fun x hx => hx, ?_, ?_⟩
        · intro lt hl
          refine ⟨l', rfl, ?_⟩
          have := ih _ _ _ hrec
          rw [hl] at this
          exact this
        · exact fun rt hr => ⟨rt, hr, IntervalTree.subHeaps_refl rt⟩
    · by_cases h2 : i.start > c
      · rw [if_neg h1, if_pos h2] at h
        cases hrec : IntervalTree.insert n (r.getD (IntervalTree.new c e)) i with
        | panic => rw [hrec] at h; cases h
        | diverge => rw [hrec] at h; cases h
        | ok r' =>
          rw [hrec] at h
          cases h
          rw [IntervalTree.SubHeaps]
          refine ⟨fun x hx => hx, fun x hx => hx, ?_, ?_⟩
          · exact fun lt hl => ⟨lt, hl, IntervalTree.subHeaps_refl lt⟩
          · intro rt hr
            refine ⟨r', rfl, ?_⟩
            have := ih _ _ _ hrec
            rw [hr] at this
            exact this
      · rw [if_neg h1, if_neg h2] at h
        cases h
        rw [IntervalTree.SubHeaps]
        refine ⟨fun x hx => List.mem_cons_of_mem i hx, fun x hx => List.mem_cons_of_mem i hx,
          ?_, ?_⟩
        · exact fun lt hl => ⟨lt, hl, IntervalTree.subHeaps_refl lt⟩
        · exact fun rt hr => ⟨rt, hr, IntervalTree.subHeaps_refl rt⟩

theorem mem_spanPoints (a b p : Int) : p ∈ spanPoints a b ↔ a ≤ p ∧ p < b := by
  rw [spanPoints]
  constructor
  · intro hp
    obtain ⟨k, hk, hkp⟩ := List.mem_map.mp hp
    rw [List.mem_range] at hk
    have hpk : p = a + (k : Int) := hkp.symm
    omega
  · rintro ⟨h1, h2⟩
    refine List.mem_map.mpr ⟨(p - a).toNat, ?_, ?_⟩
    · rw [List.mem_range]
      omega
    · show a + ((p - a).toNat : Int) = p
      omega

/-- The union-fold underlying the spec's `find_with_interval` succeeds when
every queried point passes the range assertion, and collects exactly the
union of the point queries. -/
theorem foldl_union_spec (t : IntervalTree) : ∀ (pts : List Int) (acc : Finset Interval),
    (∀ p ∈ pts, t.overflow_point p = false) →
    ∃ S, pts.foldlM (fun acc p => (t.find_with_point p).map (fun s => acc ∪ s)) acc
        = some S ∧
      ∀ x, x ∈ S ↔ x ∈ acc ∨ ∃ p ∈ pts, x ∈ t.find_with_point_rec p ∅ := by
  intro pts
  induction pts with
  | nil =>
    intro acc _
    exact ⟨acc, rfl, by simp⟩
  | cons p rest ih =>
    intro acc hok
    have hp : t.find_with_point p = some (t.find_with_point_rec p ∅) := by
      rw [IntervalTree.find_with_point, hok p (List.mem_cons_self p rest)]
      simp
    obtain ⟨S, hS, hmem⟩ := ih (acc ∪ t.find_with_point_rec p ∅)
      (fun q hq => hok q (List.mem_cons_of_mem p hq))
    refine ⟨S, ?_, ?_⟩
    · rw [List.foldlM_cons, hp]
      simpa using hS
    · intro x
      rw [hmem x]
      simp only [Finset.mem_union, List.mem_cons]
      constructor
      · rintro ((hx | hx) | ⟨q, hq, hx⟩)
        · exact Or.inl hx
        · exact Or.inr ⟨p, Or.inl rfl, hx⟩
        · exact Or.inr ⟨q, Or.inr hq, hx⟩
      · rintro (hx | ⟨q, hq | hq, hx⟩)
        · exact Or.inl (Or.inl hx)
        · subst hq; exact Or.inl (Or.inr hx)
        · exact Or.inr ⟨q, hq, hx⟩

/-- The looping input behind the counterexample to claim C9: on the tree over
`[-1, 0)` the center is `Int.tdiv (-1) 2 = 0` (truncation toward zero), so
inserting `[-1, 0)` always takes the left branch into a lazily created child
covering `[-1, 0)` again — an infinite descent. -/
theorem IntervalTree.insert_neg_loop :
    ∀ fuel, IntervalTree.insert fuel (IntervalTree.new (-1) 0) ⟨-1, 0⟩ = .diverge := by
  intro fuel
  induction fuel with
  | zero => rfl
  | succ n ih =>
    have hstep : IntervalTree.insert (n + 1) (IntervalTree.new (-1) 0) ⟨-1, 0⟩
        = match IntervalTree.insert n (IntervalTree.new (-1) 0) ⟨-1, 0⟩ with
          | .ok l' => .ok (.mk (-1) 0 0 (some l') none [] [])
          | res => res := rfl
    rw [hstep, ih]

@[simp] theorem WIntervalTree.new_start (w s e : Nat) :
    (WIntervalTree.new w s e).start = s := rfl

@[simp] theorem WIntervalTree.new_stop (w s e : Nat) :
    (WIntervalTree.new w s e).stop = e := rfl

@[simp] theorem WIntervalTree.new_center (w s e : Nat) :
    (WIntervalTree.new w s e).center = centerWrap w s e := rfl

@[simp] theorem WIntervalTree.new_left (w s e : Nat) :
    (WIntervalTree.new w s e).left = none := rfl

@[simp] theorem WIntervalTree.new_right (w s e : Nat) :
    (WIntervalTree.new w s e).right = none := rfl

@[simp] theorem WIntervalTree.new_overlaps_begin (w s e : Nat) :
    (WIntervalTree.new w s e).overlaps_begin = [] := rfl

@[simp] theorem WIntervalTree.new_overlaps_end (w s e : Nat) :
    (WIntervalTree.new w s e).overlaps_end = [] := rfl

/-- One step of the wrapped descent on a fresh leaf, when the interval sorts
strictly right of the (wrapped) center: the insertion recurses into the
lazily created right child over `[center, stop)`. -/
theorem WIntervalTree.insert_step_right (w n s e : Nat) (i : WInterval)
    (hov : (WIntervalTree.new w s e).overflow_interval i = false)
    (h1 : ¬(i.stop ≤ centerWrap w s e)) (h2 : i.start > centerWrap w s e) :
    WIntervalTree.insert w (n + 1) (WIntervalTree.new w s e) i
      = match WIntervalTree.insert w n (WIntervalTree.new w (centerWrap w s e) e) i with
        | .ok r' => .ok (.mk s e (centerWrap w s e) none (some r') [] [])
        | res => res := by
  rw [WIntervalTree.insert, hov]
  simp only [Bool.false_eq_true, if_false, WIntervalTree.new_start, WIntervalTree.new_stop,
    WIntervalTree.new_center, WIntervalTree.new_left, WIntervalTree.new_right,
    WIntervalTree.new_overlaps_begin, WIntervalTree.new_overlaps_end, Option.getD_none]
  rw [if_neg h1, if_pos h2]

/-- At every node start in `wrapChain` (paired with stop `250` at width 8),
the interval `[200, 201)` passes the assertion, sorts strictly right of the
wrapped center, and the next node start is again in `wrapChain`. -/
theorem wrapChain_facts : ∀ a ∈ wrapChain,
    (WIntervalTree.new 8 a 250).overflow_interval ⟨200, 201⟩ = false ∧
    ¬((201 : Nat) ≤ centerWrap 8 a 250) ∧ (200 : Nat) > centerWrap 8 a 250 ∧
    centerWrap 8 a 250 ∈ wrapChain := by
  decide

/-- The wrapped descent of `[200, 201)` through the `[a, 250)` nodes with
`a ∈ wrapChain` never returns: each step goes right into the next chain
element, and the chain is closed (it ends in the cycle
`10, 2, 126, 60, 27, 10, ...`). -/
theorem wrap_loop : ∀ (n : Nat), ∀ a ∈ wrapChain,
    WIntervalTree.insert 8 n (WIntervalTree.new 8 a 250) ⟨200, 201⟩ = .diverge := by
  intro n
  induction n with
  | zero => intro a _; rfl
  | succ n ih =>
    intro a ha
    obtain ⟨hov, h1, h2, hmem⟩ := wrapChain_facts a ha
    rw [WIntervalTree.insert_step_right 8 n a 250 ⟨200, 201⟩ hov h1 h2, ih _ hmem]

/-- The recursive point query on a fresh leaf collects nothing. -/
theorem IntervalTree.find_rec_new (s e p : Int) (acc : Finset Interval) :
    (IntervalTree.new s e).find_with_point_rec p acc = acc := by
  rw [IntervalTree.new, IntervalTree.find_with_point_rec]
  by_cases hp : p < Int.tdiv (s + e) 2 <;> simp [hp]

/-- The full correctness of the point query on built trees: for an in-range
point it succeeds and returns exactly the inserted intervals containing the
point. -/
theorem IntervalTree.find_characterization (fuel : Nat) (s e : Int) (l : List Interval)
    (t : IntervalTree) (p : Int) (hbuild : IntervalTree.build fuel s e l = some t)
    (hp1 : s ≤ p) (hp2 : p < e) :
    ∃ S, t.find_with_point p = some S ∧
      ∀ I, I ∈ S ↔ I ∈ l ∧ I.start ≤ p ∧ p < I.stop := by
  obtain ⟨hts, hte, hsi, hri, hcont, hmem⟩ := IntervalTree.build_spec fuel s e l t hbuild
  have hovp : t.overflow_point p = false := by
    rw [IntervalTree.overflow_point_false, hts, hte]
    exact ⟨hp1, hp2⟩
  refine ⟨t.find_with_point_rec p ∅, ?_, ?_⟩
  · rw [IntervalTree.find_with_point, hovp]
    simp
  · intro I
    rw [IntervalTree.mem_find_rec t hsi p ∅ I, hcont]
    simp [Multiset.mem_coe]

/-! The claims. -/

/-- C1: for every tree built over a domain and every point `p` with
`range.start <= p < range.end`, `find_with_point p` returns exactly the set
of previously inserted intervals `I` with `I.begin <= p < I.end`: every such
interval is in the result set, and no other interval is. -/
theorem claim_c1 (fuel : Nat) (s e : Int) (l : List Interval) (t : IntervalTree) (p : Int)
    (hbuild : IntervalTree.build fuel s e l = some t) (hp1 : s ≤ p) (hp2 : p < e) :
    ∃ S, t.find_with_point p = some S ∧
      ∀ I, I ∈ S ↔ I ∈ l ∧ I.start ≤ p ∧ p < I.stop :=
  IntervalTree.find_characterization fuel s e l t p hbuild hp1 hp2

/-- C1 witness: the tree over `[0, 10)` with `[0,5)` and `[5,10)` inserted,
queried at `5`. -/
theorem claim_c1_witness :
    IntervalTree.build 20 0 10 [⟨0, 5⟩, ⟨5, 10⟩] = some (.mk 0 10 5
      (some (.mk 0 5 2 none none [⟨0, 5⟩] [⟨0, 5⟩])) none [⟨5, 10⟩] [⟨5, 10⟩]) ∧
    (0 : Int) ≤ 5 ∧ (5 : Int) < 10 ∧
    ∃ S, (IntervalTree.mk 0 10 5
        (some (.mk 0 5 2 none none [⟨0, 5⟩] [⟨0, 5⟩])) none
        [⟨5, 10⟩] [⟨5, 10⟩]).find_with_point 5 = some S ∧
      ∀ I, I ∈ S ↔ I ∈ [(⟨0, 5⟩ : Interval), ⟨5, 10⟩] ∧ I.start ≤ 5 ∧ 5 < I.stop :=
  ⟨rfl, by decide, by decide, claim_c1 20 0 10 [⟨0, 5⟩, ⟨5, 10⟩] _ 5 rfl (by decide) (by decide)⟩

/-- C2: on built trees, the spec's `find_with_interval` (the union of
`find_with_point` over the points of the query's span) returns, for a query
within the root range, exactly the inserted intervals sharing at least one
point with the query (`max(I.begin, Q.begin) < min(I.end, Q.end)`). -/
theorem claim_c2 (fuel : Nat) (s e : Int) (l : List Interval) (t : IntervalTree)
    (q : Interval) (hbuild : IntervalTree.build fuel s e l = some t)
    (hq : t.overflow_interval q = false) :
    ∃ S, t.find_with_interval q = some S ∧
      ∀ I, I ∈ S ↔ I ∈ l ∧ max I.start q.start < min I.stop q.stop := by
  obtain ⟨hts, hte, hsi, hri, hcont, hmem⟩ := IntervalTree.build_spec fuel s e l t hbuild
  have hq' := hq
  rw [IntervalTree.overflow_interval_false, hts, hte] at hq'
  have hall : ∀ p ∈ spanPoints q.start q.stop, t.overflow_point p = false := by
    intro p hp
    rw [mem_spanPoints] at hp
    rw [IntervalTree.overflow_point_false, hts, hte]
    omega
  obtain ⟨S, hS, hmemS⟩ := foldl_union_spec t (spanPoints q.start q.stop) ∅ hall
  refine ⟨S, ?_, ?_⟩
  · rw [IntervalTree.find_with_interval, hq]
    simp only [Bool.false_eq_true, if_false]
    exact hS
  · intro I
    rw [hmemS I]
    simp only [Finset.not_mem_empty, false_or]
    constructor
    · rintro ⟨p, hp, hI⟩
      rw [mem_spanPoints] at hp
      rw [IntervalTree.mem_find_rec t hsi p ∅ I] at hI
      rcases hI with h | ⟨hIc, h1, h2⟩
      · exact absurd h (Finset.not_mem_empty I)
      · rw [hcont, Multiset.mem_coe] at hIc
        exact ⟨hIc, by omega⟩
    · rintro ⟨hIl, hov⟩
      refine ⟨max I.start q.start, ?_, ?_⟩
      · rw [mem_spanPoints]
        omega
      · rw [IntervalTree.mem_find_rec t hsi _ ∅ I]
        exact Or.inr ⟨by rw [hcont, Multiset.mem_coe]; exact hIl, by omega, by omega⟩

/-- C2 witness: querying `[0, 3)` on the tree over `[0, 10)` holding `[0,5)`
and `[5,10)`. -/
theorem claim_c2_witness :
    IntervalTree.build 20 0 10 [⟨0, 5⟩, ⟨5, 10⟩] = some (.mk 0 10 5
      (some (.mk 0 5 2 none none [⟨0, 5⟩] [⟨0, 5⟩])) none [⟨5, 10⟩] [⟨5, 10⟩]) ∧
    (IntervalTree.mk 0 10 5 (some (.mk 0 5 2 none none [⟨0, 5⟩] [⟨0, 5⟩])) none
      [⟨5, 10⟩] [⟨5, 10⟩]).overflow_interval ⟨0, 3⟩ = false ∧
    ∃ S, (IntervalTree.mk 0 10 5
        (some (.mk 0 5 2 none none [⟨0, 5⟩] [⟨0, 5⟩])) none
        [⟨5, 10⟩] [⟨5, 10⟩]).find_with_interval ⟨0, 3⟩ = some S ∧
      ∀ I, I ∈ S ↔ I ∈ [(⟨0, 5⟩ : Interval), ⟨5, 10⟩]
        ∧ max I.start 0 < min I.stop 3 :=
  ⟨rfl, by decide, claim_c2 20 0 10 [⟨0, 5⟩, ⟨5, 10⟩] _ ⟨0, 3⟩ rfl (by decide)⟩

/-- C3: a successful insertion stores the interval at exactly one node, the
first node on the top-down descent whose center the interval straddles
(`interval.begin <= center < interval.end`); at every node where
`interval.end <= center` it descends into the lazily created left child over
`[range.begin, center)`, and where `interval.begin > center` into the right
child over `[center, range.end)` — this is the content of `descends` (whose
path is unique) and `addAlong` (which pushes onto the final node's heaps
only, materializing children exactly as `childLeft` / `childRight` do). -/
theorem claim_c3 (fuel : Nat) (t t' : IntervalTree) (i : Interval)
    (h : IntervalTree.insert fuel t i = .ok t') :
    ∃ path, IntervalTree.descends t i path ∧ t' = IntervalTree.addAlong t i path ∧
      ∀ q, IntervalTree.descends t i q → q = path :=
  IntervalTree.insert_descends fuel t t' i h

/-- C3 witness: inserting `[3, 8)` into a fresh tree over `[0, 10)`. -/
theorem claim_c3_witness :
    IntervalTree.insert 5 (IntervalTree.new 0 10) ⟨3, 8⟩
      = .ok (.mk 0 10 5 none none [⟨3, 8⟩] [⟨3, 8⟩]) ∧
    ∃ path, IntervalTree.descends (IntervalTree.new 0 10) ⟨3, 8⟩ path ∧
      (IntervalTree.mk 0 10 5 none none [⟨3, 8⟩] [⟨3, 8⟩])
        = IntervalTree.addAlong (IntervalTree.new 0 10) ⟨3, 8⟩ path ∧
      ∀ q, IntervalTree.descends (IntervalTree.new 0 10) ⟨3, 8⟩ q → q = path :=
  ⟨rfl, claim_c3 5 (IntervalTree.new 0 10) _ ⟨3, 8⟩ rfl⟩

/-- C4 counterexample: the claim says `new` fails with an `InvalidRangeError`
on an inverted range, producing no tree.  The source's `new`
(`src/src/interval_tree.rs` lines 26-37) performs no check at all — no
`InvalidRangeError` exists anywhere in the code — and on the inverted range
`[1, 0)` it happily produces an ordinary leaf tree. -/
theorem claim_c4_counterexample :
    IntervalTree.new 1 0 = .mk 1 0 0 none none [] [] := rfl

/-- C4 amended: `new` never fails, for any range (inverted or not): it
returns a leaf node covering the range, with center `(begin + end) / 2`
(truncating division), no children and empty heaps; on such a leaf every
in-range point query returns the empty set. -/
theorem claim_c4_amended (s e : Int) :
    IntervalTree.new s e = .mk s e (Int.tdiv (s + e) 2) none none [] [] ∧
    (∀ p, s ≤ p → p < e → (IntervalTree.new s e).find_with_point p = some ∅) := by
  refine ⟨rfl, ?_⟩
  intro p h1 h2
  have hovp : (IntervalTree.new s e).overflow_point p = false := by
    rw [IntervalTree.overflow_point_false]
    exact ⟨h1, h2⟩
  rw [IntervalTree.find_with_point, hovp]
  simp [IntervalTree.find_rec_new]

/-- C4 witness: the leaf over `[0, 10)`, queried at `3`. -/
theorem claim_c4_witness :
    IntervalTree.new 0 10 = .mk 0 10 5 none none [] [] ∧
    (0 : Int) ≤ 3 ∧ (3 : Int) < 10 ∧
    (IntervalTree.new 0 10).find_with_point 3 = some ∅ :=
  ⟨(claim_c4_amended 0 10).1, by decide, by decide,
    (claim_c4_amended 0 10).2 3 (by decide) (by decide)⟩

/-- C5: on a built tree, `insert` panics exactly when the argument interval
is not a subrange of the root range (`interval.start < range.start` or
`interval.end > range.end`), and `find_with_point` panics exactly when the
point lies outside `[range.start, range.end)`.  In the embedding a panic
returns no tree and no set, so no state is changed. -/
theorem claim_c5 (fb fuel : Nat) (s e : Int) (l : List Interval) (t : IntervalTree)
    (i : Interval) (p : Int) (hbuild : IntervalTree.build fb s e l = some t)
    (hf : 0 < fuel) :
    (IntervalTree.insert fuel t i = .panic ↔ t.overflow_interval i = true) ∧
    (t.find_with_point p = none ↔ t.overflow_point p = true) := by
  obtain ⟨hts, hte, hsi, hri, _, _⟩ := IntervalTree.build_spec fb s e l t hbuild
  constructor
  · constructor
    · intro hpanic
      cases hx : t.overflow_interval i with
      | true => rfl
      | false => exact absurd hpanic (IntervalTree.insert_ne_panic fuel t i hri hx)
    · exact fun hov => IntervalTree.insert_panic_of_overflow fuel t i hf hov
  · constructor
    · intro hnone
      cases hx : t.overflow_point p with
      | true => rfl
      | false =>
        rw [IntervalTree.find_with_point, hx] at hnone
        simp at hnone
    · intro hov
      rw [IntervalTree.find_with_point, hov]
      simp

/-- C5 witness: the leaf tree over `[0, 10)`, the out-of-range interval
`[1, 11)` and the out-of-range point `12`. -/
theorem claim_c5_witness :
    IntervalTree.build 20 0 10 [] = some (IntervalTree.new 0 10) ∧ 0 < 1 ∧
    ((IntervalTree.insert 1 (IntervalTree.new 0 10) ⟨1, 11⟩ = .panic ↔
        (IntervalTree.new 0 10).overflow_interval ⟨1, 11⟩ = true) ∧
      ((IntervalTree.new 0 10).find_with_point 12 = none ↔
        (IntervalTree.new 0 10).overflow_point 12 = true)) :=
  ⟨rfl, by decide, claim_c5 20 1 0 10 [] (IntervalTree.new 0 10) ⟨1, 11⟩ 12 rfl (by decide)⟩

/-- C6: in every tree built by `new` followed by `insert`s, the two heaps of
every node contain exactly the same set of intervals; moreover a successful
`insert` only grows the heaps of existing nodes (nothing is ever removed),
pushing the interval onto both heaps of the chosen node in lockstep. -/
theorem claim_c6 :
    (∀ fuel (s e : Int) (l : List Interval) (t : IntervalTree),
      IntervalTree.build fuel s e l = some t → t.HeapsEqSet) ∧
    (∀ fuel (t t' : IntervalTree) (i : Interval),
      IntervalTree.insert fuel t i = .ok t' → t.SubHeaps t') := by
  constructor
  · intro fuel s e l t h
    exact IntervalTree.storeInv_heapsEqSet t (IntervalTree.build_spec fuel s e l t h).2.2.1
  · intro fuel t t' i h
    exact IntervalTree.insert_subHeaps fuel t t' i h

/-- C6 witness: the tree over `[0, 10)` holding `[3, 8)`. -/
theorem claim_c6_witness :
    IntervalTree.build 20 0 10 [⟨3, 8⟩]
      = some (.mk 0 10 5 none none [⟨3, 8⟩] [⟨3, 8⟩]) ∧
    (IntervalTree.mk 0 10 5 none none [⟨3, 8⟩] [⟨3, 8⟩]).HeapsEqSet ∧
    (IntervalTree.new 0 10).SubHeaps (.mk 0 10 5 none none [⟨3, 8⟩] [⟨3, 8⟩]) :=
  ⟨rfl, claim_c6.1 20 0 10 [⟨3, 8⟩] _ rfl, claim_c6.2 5 (IntervalTree.new 0 10) _ ⟨3, 8⟩ rfl⟩

/-- C7: two successful builds over the same range from two permutations of
the same intervals answer every in-domain point query with equal sets. -/
theorem claim_c7 (f1 f2 : Nat) (s e : Int) (l1 l2 : List Interval)
    (t1 t2 : IntervalTree) (h1 : IntervalTree.build f1 s e l1 = some t1)
    (h2 : IntervalTree.build f2 s e l2 = some t2) (hperm : l1.Perm l2) :
    ∀ p, s ≤ p → p < e → t1.find_with_point p = t2.find_with_point p := by
  intro p hp1 hp2
  obtain ⟨S1, hS1, hm1⟩ := IntervalTree.find_characterization f1 s e l1 t1 p h1 hp1 hp2
  obtain ⟨S2, hS2, hm2⟩ := IntervalTree.find_characterization f2 s e l2 t2 p h2 hp1 hp2
  rw [hS1, hS2, Option.some_inj]
  ext I
  rw [hm1 I, hm2 I, hperm.mem_iff]

/-- C7 witness: the two insertion orders of `{[0,5), [5,10)}` over `[0, 10)`,
queried at `5`. -/
theorem claim_c7_witness :
    IntervalTree.build 20 0 10 [⟨0, 5⟩, ⟨5, 10⟩] = some (.mk 0 10 5
      (some (.mk 0 5 2 none none [⟨0, 5⟩] [⟨0, 5⟩])) none [⟨5, 10⟩] [⟨5, 10⟩]) ∧
    IntervalTree.build 20 0 10 [⟨5, 10⟩, ⟨0, 5⟩] = some (.mk 0 10 5
      (some (.mk 0 5 2 none none [⟨0, 5⟩] [⟨0, 5⟩])) none [⟨5, 10⟩] [⟨5, 10⟩]) ∧
    [(⟨0, 5⟩ : Interval), ⟨5, 10⟩].Perm [⟨5, 10⟩, ⟨0, 5⟩] ∧
    (IntervalTree.mk 0 10 5 (some (.mk 0 5 2 none none [⟨0, 5⟩] [⟨0, 5⟩])) none
        [⟨5, 10⟩] [⟨5, 10⟩]).find_with_point 5
      = (IntervalTree.mk 0 10 5 (some (.mk 0 5 2 none none [⟨0, 5⟩] [⟨0, 5⟩])) none
        [⟨5, 10⟩] [⟨5, 10⟩]).find_with_point 5 :=
  ⟨rfl, rfl, by decide,
    claim_c7 20 20 0 10 [⟨0, 5⟩, ⟨5, 10⟩] [⟨5, 10⟩, ⟨0, 5⟩] _ _ rfl rfl (by decide)
      5 (by decide) (by decide)⟩

/-- C8: for every interval `I` inserted by a successful build, a query at
`I.end` (when `I.end` is in-domain, which given `I.end <= range.end` means
`I.end < range.end`) never contains `I`, and a query at `I.begin` (always
in-domain for a successfully inserted interval) contains `I`: half-open
boundary semantics. -/
theorem claim_c8 (fuel : Nat) (s e : Int) (l : List Interval) (t : IntervalTree)
    (I : Interval) (hbuild : IntervalTree.build fuel s e l = some t) (hI : I ∈ l) :
    (I.stop < e → ∃ S, t.find_with_point I.stop = some S ∧ I ∉ S) ∧
    (∃ S, t.find_with_point I.start = some S ∧ I ∈ S) := by
  obtain ⟨hts, hte, hsi, hri, hcont, hmem⟩ := IntervalTree.build_spec fuel s e l t hbuild
  obtain ⟨ha, hb', hc⟩ := hmem I hI
  constructor
  · intro hend
    obtain ⟨S, hS, hm⟩ :=
      IntervalTree.find_characterization fuel s e l t I.stop hbuild (by omega) hend
    refine ⟨S, hS, ?_⟩
    intro hIS
    have := (hm I).mp hIS
    omega
  · obtain ⟨S, hS, hm⟩ :=
      IntervalTree.find_characterization fuel s e l t I.start hbuild ha (by omega)
    exact ⟨S, hS, (hm I).mpr ⟨hI, le_refl _, hc⟩⟩

/-- C8 witness: the interval `[3, 8)` in the tree over `[0, 10)`, queried at
its two endpoints. -/
theorem claim_c8_witness :
    IntervalTree.build 20 0 10 [⟨3, 8⟩]
      = some (.mk 0 10 5 none none [⟨3, 8⟩] [⟨3, 8⟩]) ∧
    (⟨3, 8⟩ : Interval) ∈ [(⟨3, 8⟩ : Interval)] ∧ (8 : Int) < 10 ∧
    (∃ S, (IntervalTree.mk 0 10 5 none none [⟨3, 8⟩] [⟨3, 8⟩]).find_with_point 8 = some S ∧
      (⟨3, 8⟩ : Interval) ∉ S) ∧
    (∃ S, (IntervalTree.mk 0 10 5 none none [⟨3, 8⟩] [⟨3, 8⟩]).find_with_point 3 = some S ∧
      (⟨3, 8⟩ : Interval) ∈ S) :=
  ⟨rfl, by decide, by decide,
    (claim_c8 20 0 10 [⟨3, 8⟩] _ ⟨3, 8⟩ rfl (by decide)).1 (by decide),
    (claim_c8 20 0 10 [⟨3, 8⟩] _ ⟨3, 8⟩ rfl (by decide)).2⟩

/-- C9 (code bug): the claim — `insert` terminates for every interval with
`start < end` lying within the tree's root range — matches the code's
documented contract (`insert` either panics on an out-of-range argument or
inserts) and the spec's statement that the descent depth is bounded by the
range's bit-width, but the code violates it on valid inputs, in two
independent ways, both shown here.
First, signed truncation: over the range `[-1, 0)` (a valid tree) the
interval `[-1, 0)` is nonempty and in range, no arithmetic overflows, yet the
node's center is `Int.tdiv (-1) 2 = 0` (Rust's `/` truncates toward zero), so
`interval.end <= center` sends the descent into a lazily created left child
covering `[-1, 0)` — the identical node — forever (a stack overflow in Rust,
debug and release alike).
Second, fixed-width wrap: at the u8 instantiation, over the range
`[200, 250)` (nonnegative, `start < stop`) with the in-range nonempty
interval `[200, 201)`, the center additions wrap modulo `2 ^ 8` (release
mode; a debug build panics on the overflowing addition instead), every
wrapped center falls below `200`, and the descent goes right forever through
`[center, 250)` nodes whose starts end in the cycle `10, 2, 126, 60, 27`. -/
theorem claim_c9 :
    ((Interval.mk (-1) 0).start < (Interval.mk (-1) 0).stop ∧
      (IntervalTree.new (-1) 0).overflow_interval ⟨-1, 0⟩ = false ∧
      (IntervalTree.new (-1) 0).insertDiverges ⟨-1, 0⟩) ∧
    ((WInterval.mk 200 201).start < (WInterval.mk 200 201).stop ∧
      (WIntervalTree.new 8 200 250).overflow_interval ⟨200, 201⟩ = false ∧
      WIntervalTree.insertDiverges 8 (WIntervalTree.new 8 200 250) ⟨200, 201⟩) :=
  ⟨⟨by decide, by decide, IntervalTree.insert_neg_loop⟩,
   ⟨by decide, by decide, fun fuel => wrap_loop fuel 200 (by decide)⟩⟩

/-- C10: `new` computes a node's center as `(start + end) / 2` in the domain
type's fixed-width arithmetic.  At the 8-bit unsigned instantiation, for the
range `[200, 250)` the sum `450` exceeds `2 ^ 8`, wraps to `194`, and the
stored center `97` is neither the mathematical midpoint `225` nor inside
`[200, 250)`. -/
theorem claim_c10 :
    centerWrap 8 200 250 = 97 ∧
    (200 + 250) / 2 = 225 ∧
    2 ^ 8 ≤ 200 + 250 ∧
    centerWrap 8 200 250 ≠ (200 + 250) / 2 ∧
    ¬(200 ≤ centerWrap 8 200 250 ∧ centerWrap 8 200 250 < 250) := by
  decide

end ITree
